import Mathlib

/-!
Verification of the versioned-predicate / canonical-encoding slice of
`in-toto-rs`, centred on `src/models/predicate/link_v02.rs` (the `LinkV02`
predicate record).  The surrounding crate pieces that `link_v02.rs` uses —
the canonical JSON interchange (`Json::serialize` / `Json::canonicalize` /
`Json::deserialize`), the data types `ByProducts`, `Command`,
`VirtualTargetPath`, `TargetDescription`, `LinkMetadata`, and the
`PredicateWrapper` dispatcher — are not part of the given sources and are
modelled from the specification, as noted on each definition.

Conventions of the embedding:
* Rust `BTreeMap<String, V>` values are embedded as association lists
  `List (String × V)` whose keys are strictly increasing in byte order;
  the well-formedness predicates below (`keysSorted`, `LinkV02.wf`, …)
  capture the ordering invariant that every constructed `BTreeMap` has.
* Byte strings are embedded as Lean `String`/`List Char`; canonical output
  is ASCII-escaped text so character order and byte order agree.
* Rust `Result` is embedded as `Except Error`.
-/

/-- Error taxonomy, modelled from the spec (section 7): `UnsupportedVersion`,
`DecodeError::SchemaMismatch`, `DecodeError::Malformed`,
`DecodeError::NoMatchingVersion`.  (`EncodeError::Unrepresentable` cannot
arise in this model: the embedded value tree has no floats.) -/
inductive Error where
  | unsupportedVersion
  | schemaMismatch
  | malformed
  | noMatchingVersion
deriving DecidableEq, Repr

/-- Byte-order comparison of character lists (UTF-8 byte order of the encoded
strings coincides with code-point order, which this computes).  Models the
`Ord` instance of Rust `String` used as `BTreeMap` key. -/
def charsLt : List Char → List Char → Bool
  | [], [] => false
  | [], _ :: _ => true
  | _ :: _, [] => false
  | a :: as, b :: bs =>
    if a.toNat < b.toNat then true
    else if a.toNat = b.toNat then charsLt as bs
    else false

/-- Byte-order comparison of strings (Rust `String` ordering). -/
def strLt (a b : String) : Bool := charsLt a.data b.data

/-- Structured intermediate value tree of the canonical codec.  Modelled from
the spec (section 4.1): the codec serializes records to a generic structured
value before canonicalizing.  Mirrors `serde_json::Value` restricted to what
the canonical form can carry (integers only, per the spec's number rule). -/
inductive Json where
  | null
  | bool (b : Bool)
  | num (n : Int)
  | str (s : String)
  | arr (elems : List Json)
  | obj (fields : List (String × Json))

/-- Decimal digits of `n`, most significant first.  Fuel-based so that it
computes by kernel reduction; `fuel = n + 1` always suffices. -/
def renderNatAux : Nat → Nat → List Char
  | 0, _ => []
  | f+1, n =>
    if n < 10 then [Nat.digitChar n]
    else renderNatAux f (n / 10) ++ [Nat.digitChar (n % 10)]

/-- Decimal rendering of a natural number. -/
def renderNatL (n : Nat) : List Char := renderNatAux (n + 1) n

/-- Canonical rendering of an integer: decimal digits, `-` sign for negative
values, no exponent, no fraction (spec section 4.1 number rule). -/
def renderIntL (n : Int) : List Char :=
  if n < 0 then '-' :: renderNatL n.natAbs else renderNatL n.toNat

/-- Escape one character for the canonical string form: `"` and `\` get a
backslash escape, control characters become `\u00XX`, everything else is kept
as-is (spec section 4.1: escaping of defined control/metacharacters, UTF-8
preserved as-is). -/
def escChar (c : Char) : List Char :=
  if c = '"' then ['\\', '"']
  else if c = '\\' then ['\\', '\\']
  else if c.toNat < 32 then
    ['\\', 'u', '0', '0', Nat.digitChar (c.toNat / 16), Nat.digitChar (c.toNat % 16)]
  else [c]

/-- Escape a whole character list. -/
def escChars : List Char → List Char
  | [] => []
  | c :: cs => escChar c ++ escChars cs

mutual

/-- Render a value tree verbatim (fields in stored order) with no
insignificant whitespace.  Canonicalization composes this with `sortJson`. -/
def renderL : Json → List Char
  | .null => (['n', 'u', 'l', 'l'] : List Char)
  | .bool true => (['t', 'r', 'u', 'e'] : List Char)
  | .bool false => (['f', 'a', 'l', 's', 'e'] : List Char)
  | .num n => renderIntL n
  | .str s => '"' :: (escChars s.data ++ ['"'])
  | .arr [] => ['[', ']']
  | .arr (x :: xs) => '[' :: (renderL x ++ renderArrRestL xs)
  | .obj [] => ['{', '}']
  | .obj (kv :: kvs) => '{' :: (renderMemberL kv ++ renderObjRestL kvs)

/-- Render the remaining elements of a non-empty array, including the
closing bracket. -/
def renderArrRestL : List Json → List Char
  | [] => [']']
  | x :: xs => ',' :: (renderL x ++ renderArrRestL xs)

/-- Render one `"key":value` object member. -/
def renderMemberL : String × Json → List Char
  | (k, v) => '"' :: (escChars k.data ++ '"' :: ':' :: renderL v)

/-- Render the remaining members of a non-empty object, including the
closing brace. -/
def renderObjRestL : List (String × Json) → List Char
  | [] => ['}']
  | kv :: kvs => ',' :: (renderMemberL kv ++ renderObjRestL kvs)

end

/-- Insert an object member into a key-sorted member list, before the first
member whose key is not smaller.  Helper of the canonicalization pass that
sorts object keys by byte value (spec section 4.1). -/
def insertField (kv : String × Json) : List (String × Json) → List (String × Json)
  | [] => [kv]
  | kv' :: rest => if strLt kv.1 kv'.1 then kv :: kv' :: rest else kv' :: insertField kv rest

/-- Sort the members of an object by key byte order (insertion sort). -/
def sortFields : List (String × Json) → List (String × Json)
  | [] => []
  | kv :: rest => insertField kv (sortFields rest)

mutual

/-- Canonicalization pass over the value tree: recursively sort every
object's keys by byte value.  Applied after generic encoding, as the spec
(section 4.1) requires — never left to the host representation's order. -/
def sortJson : Json → Json
  | .null => .null
  | .bool b => .bool b
  | .num n => .num n
  | .str s => .str s
  | .arr xs => .arr (sortJsonList xs)
  | .obj fs => .obj (sortFields (sortJsonFields fs))

/-- Canonicalize every element of an array. -/
def sortJsonList : List Json → List Json
  | [] => []
  | x :: xs => sortJson x :: sortJsonList xs

/-- Canonicalize every member value of an object (key order handled by
`sortFields`). -/
def sortJsonFields : List (String × Json) → List (String × Json)
  | [] => []
  | (k, v) :: fs => (k, sortJson v) :: sortJsonFields fs

end

/-- Modelled from the spec: `Json::canonicalize` of the interchange module
(not among the given sources).  Turns a structured value into deterministic
bytes: object keys sorted by byte value, no insignificant whitespace,
fixed integer representation, escaped strings (spec section 4.1). -/
def Json.canonicalize (v : Json) : String :=
  String.mk (renderL (sortJson v))

/-- Prefix matcher: consume the expected characters or fail. -/
def expectP : List Char → List Char → Option (List Char)
  | [], cs => some cs
  | _ :: _, [] => none
  | p :: ps, c :: cs => if c = p then expectP ps cs else none

/-- Hex digit recognizer for `\uXXXX` escapes (canonical output only uses
lowercase hex). -/
def isHexChar (c : Char) : Bool := c.isDigit || ('a' ≤ c && c ≤ 'f')

/-- Value of a hex digit character. -/
def hexVal (c : Char) : Nat := if c.isDigit then c.toNat - 48 else c.toNat - 87

/-- Sequence a parse step: feed the parsed value and the remaining input to
the continuation, propagating errors. -/
def pbind {α β : Type} (x : Except Error (α × List Char))
    (g : α → List Char → Except Error β) : Except Error β :=
  match x with
  | .ok (a, r) => g a r
  | .error e => .error e

/-- Parse the body of a JSON string after the opening quote, up to and
including the closing quote; returns the decoded characters and the rest of
the input.  Raw control characters are rejected, escapes are decoded. -/
def parseStringBody : List Char → Except Error (List Char × List Char)
  | [] => .error .malformed
  | c :: rest =>
    if c = '"' then .ok ([], rest)
    else if c = '\\' then
      match rest with
      | [] => .error .malformed
      | e :: rest' =>
        if e = '"' then
          pbind (parseStringBody rest') (fun s r => .ok ('"' :: s, r))
        else if e = '\\' then
          pbind (parseStringBody rest') (fun s r => .ok ('\\' :: s, r))
        else if e = 'u' then
          match rest' with
          | h1 :: h2 :: h3 :: h4 :: rest'' =>
            if isHexChar h1 && isHexChar h2 && isHexChar h3 && isHexChar h4 then
              pbind (parseStringBody rest'') (fun s r =>
                .ok (Char.ofNat (((hexVal h1 * 16 + hexVal h2) * 16 + hexVal h3) * 16 + hexVal h4) :: s, r))
            else .error .malformed
          | _ => .error .malformed
        else .error .malformed
    else if c.toNat < 32 then .error .malformed
    else pbind (parseStringBody rest) (fun s r => .ok (c :: s, r))

/-- Longest prefix of decimal digits, and the rest of the input. -/
def takeDigits : List Char → List Char × List Char
  | [] => ([], [])
  | c :: cs =>
    if c.isDigit then ((takeDigits cs).1.cons c, (takeDigits cs).2)
    else ([], c :: cs)

/-- Numeric value of a list of decimal digit characters. -/
def digitsToNat (ds : List Char) : Nat :=
  ds.foldl (fun a c => a * 10 + (c.toNat - 48)) 0

mutual

/-- Parse one JSON value from the front of the input.  Fuel-based recursion
(one unit per grammar step); `input length + 1` units always suffice.
Together with the helpers below this models the strict text-level parser of
`Json::deserialize` (spec section 4.1): no leniency, malformed or truncated
input is a `DecodeError`. -/
def parseVal : Nat → List Char → Except Error (Json × List Char)
  | 0, _ => .error .malformed
  | _+1, [] => .error .malformed
  | f+1, c :: cs =>
    if c = 'n' then
      match expectP ['u', 'l', 'l'] cs with
      | some rest => .ok (.null, rest)
      | none => .error .malformed
    else if c = 't' then
      match expectP ['r', 'u', 'e'] cs with
      | some rest => .ok (.bool true, rest)
      | none => .error .malformed
    else if c = 'f' then
      match expectP ['a', 'l', 's', 'e'] cs with
      | some rest => .ok (.bool false, rest)
      | none => .error .malformed
    else if c = '"' then
      pbind (parseStringBody cs) (fun s rest => .ok (.str (String.mk s), rest))
    else if c = '-' then
      match cs with
      | [] => .error .malformed
      | d :: _ =>
        if d.isDigit then
          .ok (.num (-(digitsToNat (takeDigits cs).1 : Int)), (takeDigits cs).2)
        else .error .malformed
    else if c.isDigit then
      .ok (.num (digitsToNat (c :: (takeDigits cs).1)), (takeDigits cs).2)
    else if c = '[' then
      match cs with
      | [] => .error .malformed
      | d :: cs' =>
        if d = ']' then .ok (.arr [], cs')
        else
          pbind (parseVal f cs) (fun x r =>
            pbind (parseArrRest f r) (fun xs r' => .ok (.arr (x :: xs), r')))
    else if c = '{' then
      match cs with
      | [] => .error .malformed
      | d :: cs' =>
        if d = '}' then .ok (.obj [], cs')
        else
          pbind (parseMember f cs) (fun kv r =>
            pbind (parseObjRest f r) (fun kvs r' => .ok (.obj (kv :: kvs), r')))
    else .error .malformed

/-- Parse the elements of an array after the first one: either `]`, or a
comma followed by a value and the remaining elements. -/
def parseArrRest : Nat → List Char → Except Error (List Json × List Char)
  | 0, _ => .error .malformed
  | _+1, [] => .error .malformed
  | f+1, c :: cs =>
    if c = ']' then .ok ([], cs)
    else if c = ',' then
      pbind (parseVal f cs) (fun x r =>
        pbind (parseArrRest f r) (fun xs r' => .ok (x :: xs, r')))
    else .error .malformed

/-- Parse one `"key":value` object member. -/
def parseMember : Nat → List Char → Except Error ((String × Json) × List Char)
  | 0, _ => .error .malformed
  | _+1, [] => .error .malformed
  | f+1, c :: cs =>
    if c = '"' then
      pbind (parseStringBody cs) (fun k r =>
        match r with
        | [] => .error .malformed
        | c' :: r' =>
          if c' = ':' then
            pbind (parseVal f r') (fun v r'' => .ok ((String.mk k, v), r''))
          else .error .malformed)
    else .error .malformed

/-- Parse the members of an object after the first one: either `}`, or a
comma followed by a member and the remaining members. -/
def parseObjRest : Nat → List Char → Except Error (List (String × Json) × List Char)
  | 0, _ => .error .malformed
  | _+1, [] => .error .malformed
  | f+1, c :: cs =>
    if c = '}' then .ok ([], cs)
    else if c = ',' then
      pbind (parseMember f cs) (fun kv r =>
        pbind (parseObjRest f r) (fun kvs r' => .ok (kv :: kvs, r')))
    else .error .malformed

end

/-- Modelled from the spec: `Json::deserialize` of the interchange module
(not among the given sources) — `deserialize(bytes) -> structured_intermediate
| DecodeError` (spec section 4.1).  The whole input must be consumed. -/
def Json.deserialize (s : String) : Except Error Json :=
  match parseVal (s.data.length + 1) s.data with
  | .ok (v, []) => .ok v
  | .ok (_, _ :: _) => .error .malformed
  | .error e => .error e

/-- Modelled from the spec: `VirtualTargetPath` (section 3) — a normalized
relative path string used as a map key with total (byte) order.  Path
validity checks live at construction time outside this slice; as map-key
data it is a string. -/
abbrev VirtualTargetPath := String

/-- Modelled from the spec: `TargetDescription` (section 3) — pairs of
(algorithm name, hex digest) describing a file's content hashes, keyed and
ordered like a `BTreeMap`. -/
abbrev TargetDescription := List (String × String)

/-- Modelled from the spec: `Command` (section 3) — the executed command
line, with one fixed canonical serialized form.  The crate serializes it as
a single string (`"command": ""` in the reference bytes). -/
abbrev Command := String

/-- Modelled from the spec: `ByProducts` (section 3 / 4.2) — fixed record
`{ return-value, stderr, stdout }`. -/
structure ByProducts where
  returnValue : Int
  stderr : String
  stdout : String
deriving DecidableEq, Repr

/-- Modelled from the spec: `ByProducts::new` returns the zero/empty
instance (`return_value = 0`, empty strings). -/
def ByProducts.new : ByProducts :=
  { returnValue := 0, stderr := "", stdout := "" }

/-- Modelled from the spec: `LinkMetadata` (section 3), the version-agnostic
unified metadata: name, materials, products, optional env, command,
byproducts.  `products` is part of the fuller system's shape and is not
understood by the `LinkV02` schema. -/
structure LinkMetadata where
  name : String
  materials : List (VirtualTargetPath × TargetDescription)
  products : List (VirtualTargetPath × TargetDescription)
  env : Option (List (String × String))
  command : Command
  byproducts : ByProducts
deriving DecidableEq, Repr

/-- Closed set of supported predicate schema identifiers
(`PredicateVersion`).  Only the `LinkV0_2` member is among the given
sources; the model's supported set is exactly this slice. -/
inductive PredicateVersion where
  | LinkV0_2
deriving DecidableEq, Repr

/-- The `LinkV02` predicate record, from `src/models/predicate/link_v02.rs`:
fields `name`, `materials : BTreeMap<VirtualTargetPath, TargetDescription>`,
`env : Option<BTreeMap<String, String>>`, `command`, `byproducts`, with
`#[serde(deny_unknown_fields)]`. -/
structure LinkV02 where
  name : String
  materials : List (VirtualTargetPath × TargetDescription)
  env : Option (List (String × String))
  command : Command
  byproducts : ByProducts
deriving DecidableEq, Repr

/-- The closed wrapper sum type (`PredicateWrapper`), one variant per
supported version; modelled from the spec (section 3) restricted to the
versions present in the given sources. -/
inductive PredicateWrapper where
  | LinkV0_2 (link : LinkV02)
deriving DecidableEq, Repr

/-- The `From<LinkMetadata> for LinkV02` conversion of `link_v02.rs`: copies
name, materials, env, command and byproducts from the metadata; other
metadata (products) is not read. -/
def LinkV02.fromMetadata (meta : LinkMetadata) : LinkV02 :=
  { name := meta.name
    materials := meta.materials
    env := meta.env
    command := meta.command
    byproducts := meta.byproducts }

/-- Serde serialization of a string-valued `BTreeMap`, iterated in stored
(key-sorted) order. -/
def strMapValue (m : List (String × String)) : Json :=
  .obj (m.map fun kv => (kv.1, .str kv.2))

/-- Serde serialization of a `TargetDescription`. -/
def tdValue (td : TargetDescription) : Json := strMapValue td

/-- Serde serialization of the materials map. -/
def matValue (ms : List (VirtualTargetPath × TargetDescription)) : Json :=
  .obj (ms.map fun kv => (kv.1, tdValue kv.2))

/-- Serde serialization of the optional env map: `None` becomes `null`, the
key itself is always emitted by the struct serializer. -/
def envValue : Option (List (String × String)) → Json
  | none => .null
  | some m => strMapValue m

/-- Serde serialization of `ByProducts` under its serialized member names
`return-value`, `stderr`, `stdout`. -/
def bpValue (b : ByProducts) : Json :=
  .obj [("return-value", .num b.returnValue), ("stderr", .str b.stderr),
        ("stdout", .str b.stdout)]

/-- Serde serialization of `LinkV02` (the `Json::serialize(self)` step of
`to_bytes`): an object with the five declared members in declaration order.
Canonicalization re-sorts keys afterwards. -/
def LinkV02.toValue (l : LinkV02) : Json :=
  .obj [("name", .str l.name), ("materials", matValue l.materials),
        ("env", envValue l.env), ("command", .str l.command),
        ("byproducts", bpValue l.byproducts)]

/-- The `PredicateLayout::to_bytes` implementation of `link_v02.rs`:
`Json::canonicalize(&Json::serialize(self)?)`.  In this model the codec can
represent every well-typed record, so the `Result` never carries an error
and the bytes are returned directly. -/
def LinkV02.to_bytes (l : LinkV02) : String :=
  Json.canonicalize l.toValue

/-- The `PredicateLayout::version` implementation of `link_v02.rs`. -/
def LinkV02.version (_ : LinkV02) : PredicateVersion :=
  PredicateVersion.LinkV0_2

/-- The `PredicateLayout::into_enum` implementation of `link_v02.rs`:
wraps the record in `PredicateWrapper::LinkV0_2`. -/
def LinkV02.into_enum (l : LinkV02) : PredicateWrapper :=
  PredicateWrapper.LinkV0_2 l

/-- Variant tag of a wrapper value. -/
def PredicateWrapper.version : PredicateWrapper → PredicateVersion
  | .LinkV0_2 _ => PredicateVersion.LinkV0_2

/-- Decode a JSON value as a string (serde `String` deserialization). -/
def decodeStr : Json → Except Error String
  | .str s => .ok s
  | _ => .error .schemaMismatch

/-- Decode every member value of an object as a string, keeping member
order (serde map visitation order). -/
def decodeStrEntries : List (String × Json) → Except Error (List (String × String))
  | [] => .ok []
  | (k, v) :: rest =>
    match decodeStr v with
    | .ok s =>
      match decodeStrEntries rest with
      | .ok tail => .ok ((k, s) :: tail)
      | .error e => .error e
    | .error e => .error e

/-- `BTreeMap::insert` on the sorted association-list embedding: place the
binding at its ordered position, replacing an existing binding of the same
key. -/
def insertMap {α : Type} (k : String) (v : α) : List (String × α) → List (String × α)
  | [] => [(k, v)]
  | (k', v') :: rest =>
    if strLt k k' then (k, v) :: (k', v') :: rest
    else if k = k' then (k, v) :: rest
    else (k', v') :: insertMap k v rest

/-- Build a `BTreeMap` by inserting entries in visitation order (what serde
does when deserializing into a `BTreeMap`). -/
def mapFromList {α : Type} (entries : List (String × α)) : List (String × α) :=
  entries.foldl (fun m kv => insertMap kv.1 kv.2 m) []

/-- Decode a JSON value as a `BTreeMap<String, String>`. -/
def decodeStrMap (v : Json) : Except Error (List (String × String)) :=
  match v with
  | .obj fs =>
    match decodeStrEntries fs with
    | .ok entries => .ok (mapFromList entries)
    | .error e => .error e
  | _ => .error .schemaMismatch

/-- Decode every member value of an object as a `TargetDescription`. -/
def decodeMatEntries : List (String × Json) → Except Error (List (VirtualTargetPath × TargetDescription))
  | [] => .ok []
  | (k, v) :: rest =>
    match decodeStrMap v with
    | .ok td =>
      match decodeMatEntries rest with
      | .ok tail => .ok ((k, td) :: tail)
      | .error e => .error e
    | .error e => .error e

/-- Decode a JSON value as the materials map. -/
def decodeMaterials (v : Json) : Except Error (List (VirtualTargetPath × TargetDescription)) :=
  match v with
  | .obj fs =>
    match decodeMatEntries fs with
    | .ok entries => .ok (mapFromList entries)
    | .error e => .error e
  | _ => .error .schemaMismatch

/-- Decode a JSON value as `Option<BTreeMap<String, String>>`: `null` is
`None`, an object is `Some` (serde `Option` deserialization). -/
def decodeEnv (v : Json) : Except Error (Option (List (String × String))) :=
  match v with
  | .null => .ok none
  | .obj fs =>
    match decodeStrMap (.obj fs) with
    | .ok m => .ok (some m)
    | .error e => .error e
  | _ => .error .schemaMismatch

/-- Decode a JSON value as an integer (serde integer deserialization; the
canonical form has integers only). -/
def decodeInt : Json → Except Error Int
  | .num n => .ok n
  | _ => .error .schemaMismatch

/-- Partial state of the serde-derived `ByProducts` struct visitor: which
fields have been seen so far. -/
structure BpAcc where
  returnValue : Option Int := none
  stderr : Option String := none
  stdout : Option String := none

/-- One field step of the `ByProducts` visitor: fill the matching slot,
reject duplicates, skip unknown members (serde default without
`deny_unknown_fields`). -/
def bpApplyField (acc : BpAcc) (k : String) (v : Json) : Except Error BpAcc :=
  if k = "return-value" then
    match acc.returnValue with
    | some _ => .error .schemaMismatch
    | none =>
      match decodeInt v with
      | .ok n => .ok { acc with returnValue := some n }
      | .error e => .error e
  else if k = "stderr" then
    match acc.stderr with
    | some _ => .error .schemaMismatch
    | none =>
      match decodeStr v with
      | .ok s => .ok { acc with stderr := some s }
      | .error e => .error e
  else if k = "stdout" then
    match acc.stdout with
    | some _ => .error .schemaMismatch
    | none =>
      match decodeStr v with
      | .ok s => .ok { acc with stdout := some s }
      | .error e => .error e
  else .ok acc

/-- Fold the `ByProducts` visitor over the members of an object. -/
def bpFields : List (String × Json) → BpAcc → Except Error BpAcc
  | [], acc => .ok acc
  | (k, v) :: rest, acc =>
    match bpApplyField acc k v with
    | .ok acc' => bpFields rest acc'
    | .error e => .error e

/-- Decode a JSON value as `ByProducts`: every declared member is required
(none has `Option` type in the struct). -/
def decodeByProducts (v : Json) : Except Error ByProducts :=
  match v with
  | .obj fs =>
    match bpFields fs {} with
    | .ok acc =>
      match acc.returnValue, acc.stderr, acc.stdout with
      | some rv, some se, some so => .ok { returnValue := rv, stderr := se, stdout := so }
      | _, _, _ => .error .schemaMismatch
    | .error e => .error e
  | _ => .error .schemaMismatch

/-- Partial state of the serde-derived `LinkV02` struct visitor. -/
structure LinkAcc where
  name : Option String := none
  materials : Option (List (VirtualTargetPath × TargetDescription)) := none
  env : Option (Option (List (String × String))) := none
  command : Option Command := none
  byproducts : Option ByProducts := none

/-- One field step of the `LinkV02` visitor: fill the matching slot, reject
duplicates; any member outside the declared set is an error because the
struct carries `#[serde(deny_unknown_fields)]`. -/
def linkApplyField (acc : LinkAcc) (k : String) (v : Json) : Except Error LinkAcc :=
  if k = "name" then
    match acc.name with
    | some _ => .error .schemaMismatch
    | none =>
      match decodeStr v with
      | .ok s => .ok { acc with name := some s }
      | .error e => .error e
  else if k = "materials" then
    match acc.materials with
    | some _ => .error .schemaMismatch
    | none =>
      match decodeMaterials v with
      | .ok ms => .ok { acc with materials := some ms }
      | .error e => .error e
  else if k = "env" then
    match acc.env with
    | some _ => .error .schemaMismatch
    | none =>
      match decodeEnv v with
      | .ok en => .ok { acc with env := some en }
      | .error e => .error e
  else if k = "command" then
    match acc.command with
    | some _ => .error .schemaMismatch
    | none =>
      match decodeStr v with
      | .ok s => .ok { acc with command := some s }
      | .error e => .error e
  else if k = "byproducts" then
    match acc.byproducts with
    | some _ => .error .schemaMismatch
    | none =>
      match decodeByProducts v with
      | .ok b => .ok { acc with byproducts := some b }
      | .error e => .error e
  else .error .schemaMismatch

/-- Fold the `LinkV02` visitor over the members of an object. -/
def linkFields : List (String × Json) → LinkAcc → Except Error LinkAcc
  | [], acc => .ok acc
  | (k, v) :: rest, acc =>
    match linkApplyField acc k v with
    | .ok acc' => linkFields rest acc'
    | .error e => .error e

/-- Serde deserialization of `LinkV02` from a structured value, as derived
from the struct declaration in `link_v02.rs`: the input must be an object;
members are visited in order with unknown members rejected
(`deny_unknown_fields`); `name`, `materials`, `command` and `byproducts`
are required; a missing `env` member defaults to `None` because the field
has `Option` type. -/
def LinkV02.fromValue (v : Json) : Except Error LinkV02 :=
  match v with
  | .obj fs =>
    match linkFields fs {} with
    | .ok acc =>
      match acc.name, acc.materials, acc.command, acc.byproducts with
      | some n, some ms, some c, some b =>
        .ok { name := n, materials := ms, env := acc.env.getD none,
              command := c, byproducts := b }
      | _, _, _, _ => .error .schemaMismatch
    | .error e => .error e
  | _ => .error .schemaMismatch

/-- Modelled from the spec: `PredicateWrapper::from_meta` (section 4.4,
`from_metadata`) — dispatch on the requested version and build the concrete
record via its `from` conversion.  The version set being closed and fully
supported, the match is exhaustive. -/
def PredicateWrapper.from_meta (meta : LinkMetadata) : PredicateVersion → PredicateWrapper
  | .LinkV0_2 => PredicateWrapper.LinkV0_2 (LinkV02.fromMetadata meta)

/-- Modelled from the spec: wrapper serialization (section 4.4) — delegate
to the wrapped record's `to_bytes`. -/
def PredicateWrapper.serialize : PredicateWrapper → String
  | .LinkV0_2 l => l.to_bytes

/-- Modelled from the spec: `PredicateWrapper::from_bytes` (section 4.4,
`decode_as`) — parse the bytes through the codec and deserialize strictly
against the schema of the hinted version only. -/
def PredicateWrapper.from_bytes (bytes : String) : PredicateVersion → Except Error PredicateWrapper
  | .LinkV0_2 =>
    match Json.deserialize bytes with
    | .ok v =>
      match LinkV02.fromValue v with
      | .ok l => .ok (PredicateWrapper.LinkV0_2 l)
      | .error e => .error e
    | .error e => .error e

/-- Modelled from the spec: `PredicateWrapper::try_from_bytes` (section 4.4,
`decode_auto`) — try every supported version in declared order and return
the first success; `NoMatchingVersion` when all fail.  The supported set of
this slice is `[LinkV0_2]`. -/
def PredicateWrapper.try_from_bytes (bytes : String) : Except Error PredicateWrapper :=
  match PredicateWrapper.from_bytes bytes PredicateVersion.LinkV0_2 with
  | .ok w => .ok w
  | .error _ => .error .noMatchingVersion

/-- Key list of an association list. -/
def keysOf {α : Type} (l : List (String × α)) : List String := l.map Prod.fst

/-- Strict byte-order sortedness of the keys of an association list: the
invariant every Rust `BTreeMap` enumeration satisfies. -/
def keysSorted {α : Type} : List (String × α) → Bool
  | [] => true
  | [_] => true
  | (k, _) :: (k', v') :: rest => strLt k k' && keysSorted ((k', v') :: rest)

/-- Well-formedness of a `LinkV02` value as produced by Rust: every embedded
`BTreeMap` association list is strictly key-sorted. -/
def LinkV02.wf (l : LinkV02) : Bool :=
  keysSorted l.materials
    && l.materials.all (fun kv => keysSorted kv.2)
    && (match l.env with
        | none => true
        | some m => keysSorted m)

/-- Well-formedness of a `LinkMetadata` value as produced by Rust. -/
def LinkMetadata.wf (m : LinkMetadata) : Bool :=
  keysSorted m.materials
    && m.materials.all (fun kv => keysSorted kv.2)
    && (match m.env with
        | none => true
        | some em => keysSorted em)

/-- Character lists that may legally follow a complete value in canonical
output: nothing, or a separator/closer.  None of these characters is a
digit, so number parsing stops exactly at the value boundary. -/
def isDelim : List Char → Bool
  | [] => true
  | c :: _ => c = ',' || c = '}' || c = ']'

/-- The canonical (key-sorted) serialized form of a `LinkV02` record. -/
def linkValueSorted (l : LinkV02) : Json :=
  .obj [("byproducts", bpValue l.byproducts), ("command", .str l.command),
        ("env", envValue l.env), ("materials", matValue l.materials),
        ("name", .str l.name)]

/-- The declared member set of the `LinkV02` schema. -/
def linkFieldNames : List String := ["name", "materials", "env", "command", "byproducts"]

/-- The canonical serialized form of a record with the `env` member removed
(used to show that a missing `env` decodes to `None` rather than failing). -/
def linkValueNoEnv (l : LinkV02) : Json :=
  .obj [("byproducts", bpValue l.byproducts), ("command", .str l.command),
        ("materials", matValue l.materials), ("name", .str l.name)]

/-! ### Concrete inputs for witnesses and counterexamples -/

/-- A populated metadata value with sorted maps, as Rust would produce. -/
def sampleMeta : LinkMetadata :=
  { name := "build-step"
    materials := [("src/lib.rs", [("sha256", "abc123")])]
    products := [("out/bin", [("sha256", "dd")])]
    env := some [("PATH", "/usr/bin")]
    command := "cargo build"
    byproducts := { returnValue := 0, stderr := "", stdout := "ok" } }

/-- The default/empty metadata of the example scenario. -/
def blankMeta : LinkMetadata :=
  { name := "", materials := [], products := [], env := none, command := ""
    byproducts := ByProducts.new }

/-- The reference canonical bytes of the example scenario. -/
def blankLinkBytes : String :=
  "\x7b\"byproducts\":\x7b\"return-value\":0,\"stderr\":\"\",\"stdout\":\"\"\x7d,\"command\":\"\",\"env\":null,\"materials\":\x7b\x7d,\"name\":\"\"\x7d"

def c2NoEnvBytes : String :=
  "\x7b\"byproducts\":\x7b\"return-value\":0,\"stderr\":\"\",\"stdout\":\"\"\x7d,\"command\":\"\",\"materials\":\x7b\x7d,\"name\":\"\"\x7d"

def c2NoEnvFields : List (String × Json) :=
  [("byproducts", .obj [("return-value", .num 0), ("stderr", .str ""), ("stdout", .str "")]),
   ("command", .str ""), ("materials", .obj []), ("name", .str "")]

def c10NoEnvBytes : String :=
  "\x7b\"byproducts\":\x7b\"return-value\":1,\"stderr\":\"e\",\"stdout\":\"o\"\x7d,\"command\":\"cc\",\"materials\":\x7b\x7d,\"name\":\"step\"\x7d"

def c10NoEnvFields : List (String × Json) :=
  [("byproducts", .obj [("return-value", .num 1), ("stderr", .str "e"), ("stdout", .str "o")]),
   ("command", .str "cc"), ("materials", .obj []), ("name", .str "step")]

/-- Materials entries deliberately given in unsorted insertion order. -/
def c9Entries : List (VirtualTargetPath × TargetDescription) :=
  [("src/z.rs", [("sha256", "22")]), ("src/a.rs", [("sha256", "11")])]


theorem pbind_ok {α β : Type} (a : α) (r : List Char)
    (g : α → List Char → Except Error β) : pbind (.ok (a, r)) g = g a r := rfl

theorem pbind_error {α β : Type} (e : Error)
    (g : α → List Char → Except Error β) : pbind (.error e) g = .error e := rfl


/-! ### Decimal rendering lemmas -/

theorem renderNatAux_digits (f : Nat) : ∀ n, n < f → ∀ c ∈ renderNatAux f n, c.isDigit := by
  induction f with
  | zero => omega
  | succ f ih =>
    intro n hn c hc
    simp only [renderNatAux] at hc
    split at hc
    · simp at hc
      subst hc
      rename_i h10
      interval_cases n <;> decide
    · rename_i h10
      simp only [List.mem_append, List.mem_singleton] at hc
      rcases hc with hc | hc
      · exact ih (n / 10) (by omega) c hc
      · subst hc
        have h : n % 10 < 10 := Nat.mod_lt _ (by omega)
        have : ∀ d, d < 10 → (Nat.digitChar d).isDigit = true := by decide
        exact this _ h

theorem renderNatAux_ne_nil (f n : Nat) (hn : n < f) : renderNatAux f n ≠ [] := by
  cases f with
  | zero => omega
  | succ f =>
    simp only [renderNatAux]
    split <;> simp

theorem digitChar_toNat (d : Nat) (hd : d < 10) : (Nat.digitChar d).toNat - 48 = d := by
  interval_cases d <;> decide

theorem digitsToNat_go (f : Nat) :
    ∀ n a, n < f →
      (renderNatAux f n).foldl (fun acc c => acc * 10 + (c.toNat - 48)) a =
        a * 10 ^ (renderNatAux f n).length + n := by
  induction f with
  | zero => omega
  | succ f ih =>
    intro n a hn
    simp only [renderNatAux]
    split
    · simp [digitChar_toNat n (by omega)]
    · rename_i h10
      rw [List.foldl_append]
      rw [ih (n / 10) a (by omega)]
      simp only [List.foldl_cons, List.foldl_nil, List.length_append, List.length_cons,
        List.length_nil]
      rw [digitChar_toNat (n % 10) (Nat.mod_lt _ (by omega))]
      have hpow : 10 ^ ((renderNatAux f (n / 10)).length + (0 + 1)) =
          10 ^ (renderNatAux f (n / 10)).length * 10 := by
        rw [Nat.zero_add, Nat.pow_succ]
      rw [hpow]
      have := Nat.div_add_mod n 10
      ring_nf
      omega

theorem digitsToNat_renderNatL (n : Nat) : digitsToNat (renderNatL n) = n := by
  unfold digitsToNat renderNatL
  rw [digitsToNat_go (n + 1) n 0 (Nat.lt_succ_self n)]
  simp

theorem renderNatL_digits (n : Nat) : ∀ c ∈ renderNatL n, c.isDigit :=
  renderNatAux_digits (n + 1) n (Nat.lt_succ_self n)

theorem renderNatL_ne_nil (n : Nat) : renderNatL n ≠ [] :=
  renderNatAux_ne_nil (n + 1) n (Nat.lt_succ_self n)

theorem takeDigits_append (l rest : List Char) (hl : ∀ c ∈ l, c.isDigit)
    (hrest : isDelim rest) :
    takeDigits (l ++ rest) = (l, rest) := by
  induction l with
  | nil =>
    cases rest with
    | nil => rfl
    | cons c cs =>
      simp only [isDelim, Bool.or_eq_true, decide_eq_true_eq] at hrest
      have : ¬ c.isDigit = true := by
        rcases hrest with (h | h) | h <;> subst h <;> decide
      simp [takeDigits, this]
  | cons c cs ih =>
    have hc : c.isDigit := hl c (by simp)
    simp only [List.cons_append, takeDigits, hc, if_true]
    have := ih (fun x hx => hl x (by simp [hx]))
    simp [this]

/-! ### String escaping round-trip -/

theorem hexChar_facts : ∀ d, d < 16 →
    isHexChar (Nat.digitChar d) = true ∧ hexVal (Nat.digitChar d) = d := by decide

theorem parseStringBody_escChars (s : List Char) (rest : List Char) :
    parseStringBody (escChars s ++ '"' :: rest) = .ok (s, rest) := by
  induction s with
  | nil =>
    rw [show escChars [] ++ '"' :: rest = '"' :: rest by simp [escChars]]
    rw [parseStringBody.eq_def]
    simp
  | cons c cs ih =>
    show parseStringBody ((escChar c ++ escChars cs) ++ '"' :: rest) = _
    rw [List.append_assoc]
    by_cases hc1 : c = '"'
    · subst hc1
      rw [show escChar '"' = ['\\', '"'] from rfl]
      rw [show ['\\', '"'] ++ (escChars cs ++ '"' :: rest)
            = '\\' :: '"' :: (escChars cs ++ '"' :: rest) by simp]
      rw [parseStringBody.eq_def]
      simp [ih, pbind]
    · by_cases hc2 : c = '\\'
      · subst hc2
        rw [show escChar '\\' = ['\\', '\\'] by rfl]
        rw [show ['\\', '\\'] ++ (escChars cs ++ '"' :: rest)
              = '\\' :: '\\' :: (escChars cs ++ '"' :: rest) by simp]
        rw [parseStringBody.eq_def]
        simp [ih, pbind]
      · by_cases hc3 : c.toNat < 32
        · have h1 : isHexChar (Nat.digitChar (c.toNat / 16)) = true :=
            (hexChar_facts _ (by omega)).1
          have h2 : isHexChar (Nat.digitChar (c.toNat % 16)) = true :=
            (hexChar_facts _ (Nat.mod_lt _ (by omega))).1
          have hval : Char.ofNat
              (((hexVal '0' * 16 + hexVal '0') * 16 + hexVal (Nat.digitChar (c.toNat / 16))) * 16
                + hexVal (Nat.digitChar (c.toNat % 16))) = c := by
            rw [(hexChar_facts _ (by omega : c.toNat / 16 < 16)).2,
              (hexChar_facts _ (Nat.mod_lt _ (by omega) : c.toNat % 16 < 16)).2]
            have h0 : hexVal '0' = 0 := by decide
            rw [h0]
            have harith : ((0 * 16 + 0) * 16 + c.toNat / 16) * 16 + c.toNat % 16 = c.toNat := by
              omega
            rw [harith, Char.ofNat_toNat]
          rw [show escChar c = ['\\', 'u', '0', '0', Nat.digitChar (c.toNat / 16),
                Nat.digitChar (c.toNat % 16)] by simp [escChar, hc1, hc2, hc3]]
          rw [show ['\\', 'u', '0', '0', Nat.digitChar (c.toNat / 16),
                Nat.digitChar (c.toNat % 16)] ++ (escChars cs ++ '"' :: rest)
              = '\\' :: 'u' :: '0' :: '0' :: Nat.digitChar (c.toNat / 16) ::
                Nat.digitChar (c.toNat % 16) :: (escChars cs ++ '"' :: rest) by simp]
          rw [parseStringBody.eq_def]
          simp [h1, h2, ih, pbind, hval]
          decide
        · rw [show escChar c = [c] by simp [escChar, hc1, hc2, hc3]]
          rw [show [c] ++ (escChars cs ++ '"' :: rest) = c :: (escChars cs ++ '"' :: rest) by simp]
          rw [parseStringBody.eq_def]
          simp [hc1, hc2, hc3, ih, pbind]
theorem renderIntL_ne_nil (n : Int) : renderIntL n ≠ [] := by
  unfold renderIntL
  split
  · simp
  · exact renderNatL_ne_nil _

theorem renderL_ne_nil (j : Json) : renderL j ≠ [] := by
  cases j with
  | null => simp [renderL]
  | bool b => cases b <;> simp [renderL]
  | num n => simpa [renderL] using renderIntL_ne_nil n
  | str s => simp [renderL]
  | arr xs => cases xs <;> simp [renderL]
  | obj fs => cases fs <;> simp [renderL]

theorem renderL_length_pos (j : Json) : 1 ≤ (renderL j).length := by
  have := renderL_ne_nil j
  cases h : renderL j with
  | nil => exact absurd h this
  | cons c t => simp

theorem renderArrRestL_length_pos (xs : List Json) : 1 ≤ (renderArrRestL xs).length := by
  cases xs <;> simp [renderArrRestL]

theorem renderObjRestL_length_pos (kvs : List (String × Json)) : 1 ≤ (renderObjRestL kvs).length := by
  cases kvs <;> simp [renderObjRestL]

theorem digit_ne (c : Char) (hc : c.isDigit = true) :
    c ≠ 'n' ∧ c ≠ 't' ∧ c ≠ 'f' ∧ c ≠ '"' ∧ c ≠ '-' ∧ c ≠ '[' ∧ c ≠ '{' ∧ c ≠ ']' ∧ c ≠ '}' ∧ c ≠ ',' := by
  refine ⟨?_, ?_, ?_, ?_, ?_, ?_, ?_, ?_, ?_, ?_⟩ <;> (intro e; subst e; exact absurd hc (by decide))

theorem renderL_head_ne (j : Json) (d : Char) (t : List Char) (h : renderL j = d :: t) :
    d ≠ ']' ∧ d ≠ '}' := by
  cases j with
  | null =>
    rw [show renderL .null = ['n','u','l','l'] from rfl] at h
    injection h with h1 _
    subst h1
    exact ⟨by decide, by decide⟩
  | bool b =>
    cases b with
    | true =>
      rw [show renderL (.bool true) = ['t','r','u','e'] from rfl] at h
      injection h with h1 _
      subst h1
      exact ⟨by decide, by decide⟩
    | false =>
      rw [show renderL (.bool false) = ['f','a','l','s','e'] from rfl] at h
      injection h with h1 _
      subst h1
      exact ⟨by decide, by decide⟩
  | num n =>
    rw [show renderL (.num n) = renderIntL n from rfl] at h
    unfold renderIntL at h
    split at h
    · injection h with h1 _
      subst h1
      exact ⟨by decide, by decide⟩
    · have hd : d.isDigit := by
        have := renderNatL_digits n.toNat
        rw [h] at this
        exact this d (by simp)
      exact ⟨(digit_ne d hd).2.2.2.2.2.2.2.1, (digit_ne d hd).2.2.2.2.2.2.2.2.1⟩
  | str s =>
    rw [show renderL (.str s) = '"' :: (escChars s.data ++ ['"']) from rfl] at h
    injection h with h1 _
    subst h1
    exact ⟨by decide, by decide⟩
  | arr xs =>
    cases xs with
    | nil =>
      rw [show renderL (.arr []) = ['[', ']'] from rfl] at h
      injection h with h1 _
      subst h1
      exact ⟨by decide, by decide⟩
    | cons x xs =>
      rw [show renderL (.arr (x :: xs)) = '[' :: (renderL x ++ renderArrRestL xs) from rfl] at h
      injection h with h1 _
      subst h1
      exact ⟨by decide, by decide⟩
  | obj fs =>
    cases fs with
    | nil =>
      rw [show renderL (.obj []) = ['{', '}'] from rfl] at h
      injection h with h1 _
      subst h1
      exact ⟨by decide, by decide⟩
    | cons kv kvs =>
      rw [show renderL (.obj (kv :: kvs)) = '{' :: (renderMemberL kv ++ renderObjRestL kvs) from rfl] at h
      injection h with h1 _
      subst h1
      exact ⟨by decide, by decide⟩

theorem isDelim_renderArrRestL (xs : List Json) (rest : List Char) :
    isDelim (renderArrRestL xs ++ rest) := by
  cases xs <;> simp [renderArrRestL, isDelim]

theorem isDelim_renderObjRestL (kvs : List (String × Json)) (rest : List Char) :
    isDelim (renderObjRestL kvs ++ rest) := by
  cases kvs <;> simp [renderObjRestL, isDelim]
theorem parseVal_num (f : Nat) (n : Int) (rest : List Char) (hrest : isDelim rest) :
    parseVal (f+1) (renderIntL n ++ rest) = .ok (.num n, rest) := by
  unfold renderIntL
  split
  · rename_i hneg
    cases hr : renderNatL n.natAbs with
    | nil => exact absurd hr (renderNatL_ne_nil _)
    | cons d t =>
      have hdig : ∀ c ∈ d :: t, c.isDigit := by
        rw [← hr]
        exact renderNatL_digits n.natAbs
      have hd : d.isDigit = true := hdig d (by simp)
      have htdA := takeDigits_append (d :: t) rest hdig hrest
      have htdB : takeDigits (d :: (t ++ rest)) = (d :: t, rest) := htdA
      have htdC : takeDigits (List.append (d :: t) rest) = (d :: t, rest) := htdA
      have htdD : takeDigits (d :: List.append t rest) = (d :: t, rest) := htdA
      have hvals : digitsToNat (d :: t) = n.natAbs := by
        rw [show d :: t = renderNatL n.natAbs from hr.symm, digitsToNat_renderNatL]
      have habs : |n| = -n := abs_of_neg hneg
      simp [parseVal, hd, htdB, htdC, htdD, hvals, habs]
  · rename_i hneg
    cases hr : renderNatL n.toNat with
    | nil => exact absurd hr (renderNatL_ne_nil _)
    | cons d t =>
      have hdig : ∀ c ∈ d :: t, c.isDigit := by
        rw [← hr]
        exact renderNatL_digits n.toNat
      have hd : d.isDigit = true := hdig d (by simp)
      obtain ⟨e1, e2, e3, e4, e5, e6, e7, -⟩ := digit_ne d hd
      have htdA := takeDigits_append t rest (fun c hc => hdig c (by simp [hc])) hrest
      have htdB : takeDigits (List.append t rest) = (t, rest) := htdA
      have hvals : digitsToNat (d :: t) = n.toNat := by
        rw [show d :: t = renderNatL n.toNat from hr.symm, digitsToNat_renderNatL]
      simp [parseVal, hd, e1, e2, e3, e4, e5, e6, e7, htdA, htdB, hvals]
      all_goals omega
theorem parse_render (f : Nat) :
    (∀ j rest, isDelim rest → (renderL j).length < f →
      parseVal f (renderL j ++ rest) = .ok (j, rest)) ∧
    (∀ xs rest, (renderArrRestL xs).length < f →
      parseArrRest f (renderArrRestL xs ++ rest) = .ok (xs, rest)) ∧
    (∀ kv rest, isDelim rest → (renderMemberL kv).length < f →
      parseMember f (renderMemberL kv ++ rest) = .ok (kv, rest)) ∧
    (∀ kvs rest, (renderObjRestL kvs).length < f →
      parseObjRest f (renderObjRestL kvs ++ rest) = .ok (kvs, rest)) := by
  induction f using Nat.strong_induction_on with
  | _ f IH =>
  cases f with
  | zero =>
    exact ⟨fun j rest _ h => absurd h (by omega), fun xs rest h => absurd h (by omega),
      fun kv rest _ h => absurd h (by omega), fun kvs rest h => absurd h (by omega)⟩
  | succ f =>
    obtain ⟨ih1, ih2, ih3, ih4⟩ := IH f (Nat.lt_succ_self f)
    refine ⟨?_, ?_, ?_, ?_⟩
    · intro j rest hrest hlen
      cases j with
      | null => simp [renderL, parseVal, expectP]
      | bool b => cases b <;> simp [renderL, parseVal, expectP]
      | num n =>
        rw [show renderL (.num n) = renderIntL n from rfl] at hlen ⊢
        exact parseVal_num f n rest hrest
      | str s =>
        rw [show renderL (.str s) = '"' :: (escChars s.data ++ ['"']) from rfl]
        rw [show ('"' :: (escChars s.data ++ ['"'])) ++ rest
              = '"' :: (escChars s.data ++ '"' :: rest) by simp]
        simp [parseVal, parseStringBody_escChars s.data rest, pbind]
      | arr xs =>
        cases xs with
        | nil => simp [renderL, parseVal]
        | cons x xs =>
          have hL : (renderL (.arr (x :: xs))).length
              = 1 + (renderL x).length + (renderArrRestL xs).length := by
            rw [show renderL (.arr (x :: xs)) = '[' :: (renderL x ++ renderArrRestL xs) from rfl]
            simp
            omega
          have hlx := renderL_length_pos x
          have hlxs := renderArrRestL_length_pos xs
          have e1 : parseVal f (renderL x ++ (renderArrRestL xs ++ rest))
              = .ok (x, renderArrRestL xs ++ rest) :=
            ih1 x _ (isDelim_renderArrRestL xs rest) (by omega)
          have e2 : parseArrRest f (renderArrRestL xs ++ rest) = .ok (xs, rest) :=
            ih2 xs rest (by omega)
          rw [show renderL (.arr (x :: xs)) = '[' :: (renderL x ++ renderArrRestL xs) from rfl]
          rw [show ('[' :: (renderL x ++ renderArrRestL xs)) ++ rest
                = '[' :: (renderL x ++ (renderArrRestL xs ++ rest)) by simp]
          cases hr : renderL x with
          | nil => exact absurd hr (renderL_ne_nil x)
          | cons d t =>
            have hd := renderL_head_ne x d t hr
            rw [hr] at e1
            simp only [List.cons_append] at e1
            simp [parseVal, hd.1, e1, e2, pbind]
      | obj fs =>
        cases fs with
        | nil => simp [renderL, parseVal]
        | cons kv kvs =>
          obtain ⟨k, v⟩ := kv
          have hm : renderMemberL (k, v) = '"' :: (escChars k.data ++ '"' :: ':' :: renderL v) :=
            rfl
          have hL : (renderL (.obj ((k, v) :: kvs))).length
              = 1 + (renderMemberL (k, v)).length + (renderObjRestL kvs).length := by
            rw [show renderL (.obj ((k, v) :: kvs))
                  = '{' :: (renderMemberL (k, v) ++ renderObjRestL kvs) from rfl]
            simp
            omega
          have hlm : 1 ≤ (renderMemberL (k, v)).length := by
            rw [hm]
            simp
          have hlkvs := renderObjRestL_length_pos kvs
          have e1 : parseMember f (renderMemberL (k, v) ++ (renderObjRestL kvs ++ rest))
              = .ok ((k, v), renderObjRestL kvs ++ rest) :=
            ih3 (k, v) _ (isDelim_renderObjRestL kvs rest) (by omega)
          have e2 : parseObjRest f (renderObjRestL kvs ++ rest) = .ok (kvs, rest) :=
            ih4 kvs rest (by omega)
          rw [show renderL (.obj ((k, v) :: kvs))
                = '{' :: (renderMemberL (k, v) ++ renderObjRestL kvs) from rfl]
          rw [show ('{' :: (renderMemberL (k, v) ++ renderObjRestL kvs)) ++ rest
                = '{' :: (renderMemberL (k, v) ++ (renderObjRestL kvs ++ rest)) by simp]
          rw [hm] at e1 ⊢
          simp only [List.cons_append, List.append_assoc] at e1
          simp [parseVal, e1, e2, pbind]
    · intro xs rest hlen
      cases xs with
      | nil => simp [renderArrRestL, parseArrRest]
      | cons x xs =>
        have hL : (renderArrRestL (x :: xs)).length
            = 1 + (renderL x).length + (renderArrRestL xs).length := by
          rw [show renderArrRestL (x :: xs) = ',' :: (renderL x ++ renderArrRestL xs) from rfl]
          simp
          omega
        have hlx := renderL_length_pos x
        have hlxs := renderArrRestL_length_pos xs
        have e1 : parseVal f (renderL x ++ (renderArrRestL xs ++ rest))
            = .ok (x, renderArrRestL xs ++ rest) :=
          ih1 x _ (isDelim_renderArrRestL xs rest) (by omega)
        have e2 : parseArrRest f (renderArrRestL xs ++ rest) = .ok (xs, rest) :=
          ih2 xs rest (by omega)
        rw [show renderArrRestL (x :: xs) = ',' :: (renderL x ++ renderArrRestL xs) from rfl]
        rw [show (',' :: (renderL x ++ renderArrRestL xs)) ++ rest
              = ',' :: (renderL x ++ (renderArrRestL xs ++ rest)) by simp]
        simp [parseArrRest, e1, e2, pbind]
    · intro kv rest hrest hlen
      obtain ⟨k, v⟩ := kv
      have hm : renderMemberL (k, v) = '"' :: (escChars k.data ++ '"' :: ':' :: renderL v) := rfl
      have hL : (renderMemberL (k, v)).length
          = 1 + (escChars k.data).length + 2 + (renderL v).length := by
        rw [hm]
        simp
        omega
      have e1 : parseVal f (renderL v ++ rest) = .ok (v, rest) :=
        ih1 v rest hrest (by omega)
      have hs : parseStringBody (escChars k.data ++ '"' :: (':' :: (renderL v ++ rest)))
          = .ok (k.data, ':' :: (renderL v ++ rest)) :=
        parseStringBody_escChars k.data (':' :: (renderL v ++ rest))
      rw [hm]
      rw [show ('"' :: (escChars k.data ++ '"' :: ':' :: renderL v)) ++ rest
            = '"' :: (escChars k.data ++ '"' :: (':' :: (renderL v ++ rest))) by simp]
      simp [parseMember, hs, e1, pbind]
    · intro kvs rest hlen
      cases kvs with
      | nil => simp [renderObjRestL, parseObjRest]
      | cons kv kvs =>
        have hL : (renderObjRestL (kv :: kvs)).length
            = 1 + (renderMemberL kv).length + (renderObjRestL kvs).length := by
          rw [show renderObjRestL (kv :: kvs) = ',' :: (renderMemberL kv ++ renderObjRestL kvs)
                from rfl]
          simp
          omega
        have hlm : 1 ≤ (renderMemberL kv).length := by
          obtain ⟨k, v⟩ := kv
          rw [show renderMemberL (k, v) = '"' :: (escChars k.data ++ '"' :: ':' :: renderL v)
                from rfl]
          simp
        have hlkvs := renderObjRestL_length_pos kvs
        have e1 : parseMember f (renderMemberL kv ++ (renderObjRestL kvs ++ rest))
            = .ok (kv, renderObjRestL kvs ++ rest) :=
          ih3 kv _ (isDelim_renderObjRestL kvs rest) (by omega)
        have e2 : parseObjRest f (renderObjRestL kvs ++ rest) = .ok (kvs, rest) :=
          ih4 kvs rest (by omega)
        rw [show renderObjRestL (kv :: kvs) = ',' :: (renderMemberL kv ++ renderObjRestL kvs)
              from rfl]
        rw [show (',' :: (renderMemberL kv ++ renderObjRestL kvs)) ++ rest
              = ',' :: (renderMemberL kv ++ (renderObjRestL kvs ++ rest)) by simp]
        simp [parseObjRest, e1, e2, pbind]
theorem deserialize_renderL (j : Json) :
    Json.deserialize (String.mk (renderL j)) = .ok j := by
  have h := (parse_render ((renderL j).length + 1)).1 j [] (by rfl) (by omega)
  rw [List.append_nil] at h
  unfold Json.deserialize
  simp only [show (String.mk (renderL j)).data = renderL j from rfl, h]

theorem deserialize_canonicalize (v : Json) :
    Json.deserialize (Json.canonicalize v) = .ok (sortJson v) := by
  unfold Json.canonicalize
  exact deserialize_renderL (sortJson v)

/-! ### Byte-order lemmas -/

theorem charsLt_irrefl (a : List Char) : charsLt a a = false := by
  induction a with
  | nil => rfl
  | cons c cs ih => simp [charsLt, ih]

theorem charsLt_trans (a : List Char) : ∀ b c, charsLt a b = true → charsLt b c = true →
    charsLt a c = true := by
  induction a with
  | nil =>
    intro b c hab hbc
    cases b with
    | nil => simp [charsLt] at hab
    | cons b bs =>
      cases c with
      | nil => simp [charsLt] at hbc
      | cons c cs => simp [charsLt]
  | cons a as ih =>
    intro b c hab hbc
    cases b with
    | nil => simp [charsLt] at hab
    | cons b bs =>
      cases c with
      | nil => simp [charsLt] at hbc
      | cons c cs =>
        have hab' : a.toNat < b.toNat ∨ (a.toNat = b.toNat ∧ charsLt as bs = true) := by
          by_cases h : a.toNat < b.toNat
          · exact .inl h
          · by_cases h' : a.toNat = b.toNat
            · simp [charsLt, h, h'] at hab
              exact .inr ⟨h', hab⟩
            · simp [charsLt, h, h'] at hab
        have hbc' : b.toNat < c.toNat ∨ (b.toNat = c.toNat ∧ charsLt bs cs = true) := by
          by_cases h : b.toNat < c.toNat
          · exact .inl h
          · by_cases h' : b.toNat = c.toNat
            · simp [charsLt, h, h'] at hbc
              exact .inr ⟨h', hbc⟩
            · simp [charsLt, h, h'] at hbc
        rcases hab' with h1 | ⟨h1, h1'⟩ <;> rcases hbc' with h2 | ⟨h2, h2'⟩
        · simp [charsLt, show a.toNat < c.toNat by omega]
        · simp [charsLt, show a.toNat < c.toNat by omega]
        · simp [charsLt, show a.toNat < c.toNat by omega]
        · simp [charsLt, show ¬ a.toNat < c.toNat by omega, show a.toNat = c.toNat by omega,
            ih bs cs h1' h2']

theorem strLt_trans (a b c : String) (hab : strLt a b = true) (hbc : strLt b c = true) :
    strLt a c = true :=
  charsLt_trans a.data b.data c.data hab hbc

theorem strLt_irrefl (a : String) : strLt a a = false := charsLt_irrefl a.data

theorem strLt_asymm (a b : String) (h : strLt a b = true) : strLt b a = false := by
  by_contra hc
  have h2 : strLt b a = true := by
    cases hx : strLt b a with
    | false => exact absurd hx hc
    | true => rfl
  have := strLt_trans a b a h h2
  rw [strLt_irrefl] at this
  exact Bool.noConfusion this

theorem strLt_ne (a b : String) (h : strLt a b = true) : a ≠ b := by
  intro e
  subst e
  rw [strLt_irrefl] at h
  exact Bool.noConfusion h

/-! ### Sorted association-list lemmas -/

theorem keysSorted_tail {α : Type} (kv : String × α) (l : List (String × α))
    (h : keysSorted (kv :: l) = true) : keysSorted l = true := by
  obtain ⟨k, v⟩ := kv
  cases l with
  | nil => rfl
  | cons kv' r =>
    obtain ⟨k', v'⟩ := kv'
    simp [keysSorted] at h
    exact h.2

theorem keysSorted_head_lt {α : Type} (k : String) (v : α) (k' : String) (v' : α)
    (l : List (String × α)) (h : keysSorted ((k, v) :: (k', v') :: l) = true) :
    strLt k k' = true := by
  simp [keysSorted] at h
  exact h.1

theorem keysSorted_all_before {α : Type} :
    ∀ (acc : List (String × α)) (k : String) (v : α) (l2 : List (String × α)),
      keysSorted (acc ++ (k, v) :: l2) = true → ∀ x ∈ acc, strLt x.1 k = true := by
  intro acc
  induction acc with
  | nil => simp
  | cons a as ih =>
    intro k v l2 h x hx
    obtain ⟨a1, a2⟩ := a
    cases as with
    | nil =>
      simp only [List.cons_append, List.nil_append] at h
      have h1 := keysSorted_head_lt a1 a2 k v l2 h
      simp at hx
      rw [hx]
      exact h1
    | cons b bs =>
      obtain ⟨b1, b2⟩ := b
      simp only [List.cons_append] at h
      have h1 : strLt a1 b1 = true := keysSorted_head_lt a1 a2 b1 b2 _ h
      have hrest : keysSorted (((b1, b2) :: bs) ++ (k, v) :: l2) = true :=
        keysSorted_tail (a1, a2) _ h
      have hall := ih k v l2 hrest
      rcases List.mem_cons.mp hx with hx1 | hx2
      · rw [hx1]
        exact strLt_trans a1 b1 k h1 (hall (b1, b2) (by simp))
      · exact hall x hx2

theorem insertMap_all_lt {α : Type} (k : String) (v : α) :
    ∀ (m : List (String × α)), (∀ x ∈ m, strLt x.1 k = true) →
      insertMap k v m = m ++ [(k, v)] := by
  intro m
  induction m with
  | nil => intro _; rfl
  | cons a as ih =>
    intro h
    obtain ⟨a1, a2⟩ := a
    have ha : strLt a1 k = true := h (a1, a2) (by simp)
    have h1 : strLt k a1 = false := strLt_asymm a1 k ha
    have h2 : ¬ (k = a1) := fun e => strLt_ne a1 k ha e.symm
    simp [insertMap, h1, h2, ih (fun x hx => h x (by simp [hx]))]

theorem foldl_insertMap_sorted {α : Type} :
    ∀ (l acc : List (String × α)), keysSorted (acc ++ l) = true →
      l.foldl (fun m kv => insertMap kv.1 kv.2 m) acc = acc ++ l := by
  intro l
  induction l with
  | nil =>
    intro acc _
    simp
  | cons kv rest ih =>
    intro acc h
    obtain ⟨k, v⟩ := kv
    simp only [List.foldl_cons]
    have hall : ∀ x ∈ acc, strLt x.1 k = true := keysSorted_all_before acc k v rest h
    rw [insertMap_all_lt k v acc hall]
    have h' : keysSorted ((acc ++ [(k, v)]) ++ rest) = true := by
      rw [List.append_assoc]
      simpa using h
    rw [ih (acc ++ [(k, v)]) h']
    simp

theorem mapFromList_sorted_id {α : Type} (l : List (String × α)) (h : keysSorted l = true) :
    mapFromList l = l := by
  unfold mapFromList
  have := foldl_insertMap_sorted l [] (by simpa using h)
  simpa using this
/-! ### Decoding the serialized forms -/

theorem decodeStrEntries_map (m : List (String × String)) :
    decodeStrEntries (m.map fun kv => (kv.1, .str kv.2)) = .ok m := by
  induction m with
  | nil => rfl
  | cons kv rest ih =>
    obtain ⟨k, v⟩ := kv
    simp [decodeStrEntries, decodeStr, ih]

theorem decodeStrMap_strMapValue (m : List (String × String)) (h : keysSorted m = true) :
    decodeStrMap (strMapValue m) = .ok m := by
  simp [strMapValue, decodeStrMap, decodeStrEntries_map, mapFromList_sorted_id m h]

theorem decodeMatEntries_map (ms : List (VirtualTargetPath × TargetDescription))
    (h : ∀ kv ∈ ms, keysSorted kv.2 = true) :
    decodeMatEntries (ms.map fun kv => (kv.1, tdValue kv.2)) = .ok ms := by
  induction ms with
  | nil => rfl
  | cons kv rest ih =>
    obtain ⟨k, td⟩ := kv
    have htd : keysSorted td = true := h (k, td) (by simp)
    have hrest := ih (fun kv hkv => h kv (by simp [hkv]))
    simp only [List.map_cons, decodeMatEntries]
    rw [show decodeStrMap (tdValue td) = .ok td from decodeStrMap_strMapValue td htd]
    rw [hrest]

theorem decodeMaterials_matValue (ms : List (VirtualTargetPath × TargetDescription))
    (hs : keysSorted ms = true) (htd : ∀ kv ∈ ms, keysSorted kv.2 = true) :
    decodeMaterials (matValue ms) = .ok ms := by
  simp only [matValue, decodeMaterials]
  rw [decodeMatEntries_map ms htd]
  simp [mapFromList_sorted_id ms hs]

theorem decodeEnv_envValue (e : Option (List (String × String)))
    (h : match e with | none => True | some m => keysSorted m = true) :
    decodeEnv (envValue e) = .ok e := by
  cases e with
  | none => rfl
  | some m =>
    simp only [envValue]
    have hm : keysSorted m = true := h
    simp only [strMapValue, decodeEnv]
    rw [show decodeStrMap (.obj (m.map fun kv => (kv.1, .str kv.2))) = .ok m from
      decodeStrMap_strMapValue m hm]

theorem decodeByProducts_bpValue (b : ByProducts) : decodeByProducts (bpValue b) = .ok b := rfl

/-! ### Canonicalization fixes the serialized record shape -/

theorem sortJsonFields_strMap (m : List (String × String)) :
    sortJsonFields (m.map fun kv => (kv.1, .str kv.2)) = m.map fun kv => (kv.1, .str kv.2) := by
  induction m with
  | nil => rfl
  | cons kv rest ih =>
    obtain ⟨k, v⟩ := kv
    simp [sortJsonFields, sortJson, ih]

theorem keysSorted_map {α β : Type} (g : α → β) (m : List (String × α)) :
    keysSorted (m.map fun kv => (kv.1, g kv.2)) = keysSorted m := by
  induction m with
  | nil => rfl
  | cons kv rest ih =>
    obtain ⟨k, v⟩ := kv
    cases rest with
    | nil => rfl
    | cons kv' r =>
      obtain ⟨k', v'⟩ := kv'
      simp only [keysSorted, List.map_cons] at ih ⊢
      rw [ih]

theorem sortFields_id (l : List (String × Json)) (h : keysSorted l = true) :
    sortFields l = l := by
  induction l with
  | nil => rfl
  | cons kv rest ih =>
    have hrest := keysSorted_tail kv rest h
    simp only [sortFields, ih hrest]
    cases rest with
    | nil => rfl
    | cons kv' r =>
      obtain ⟨k, v⟩ := kv
      obtain ⟨k', v'⟩ := kv'
      have hlt := keysSorted_head_lt k v k' v' r h
      simp [insertField, hlt]

theorem sortJson_strMapValue (m : List (String × String)) (h : keysSorted m = true) :
    sortJson (strMapValue m) = strMapValue m := by
  simp only [strMapValue, sortJson, sortJsonFields_strMap]
  rw [sortFields_id _ (by rw [keysSorted_map]; exact h)]

theorem sortJson_bpValue (b : ByProducts) : sortJson (bpValue b) = bpValue b := rfl

theorem sortJsonFields_matValue (ms : List (VirtualTargetPath × TargetDescription))
    (htd : ∀ kv ∈ ms, keysSorted kv.2 = true) :
    sortJsonFields (ms.map fun kv => (kv.1, tdValue kv.2))
      = ms.map fun kv => (kv.1, tdValue kv.2) := by
  induction ms with
  | nil => rfl
  | cons kv rest ih =>
    obtain ⟨k, td⟩ := kv
    have h1 : keysSorted td = true := htd (k, td) (by simp)
    have h2 := ih (fun kv hkv => htd kv (by simp [hkv]))
    simp only [List.map_cons, sortJsonFields, h2]
    rw [show sortJson (tdValue td) = tdValue td from sortJson_strMapValue td h1]

theorem sortJson_matValue (ms : List (VirtualTargetPath × TargetDescription))
    (hs : keysSorted ms = true) (htd : ∀ kv ∈ ms, keysSorted kv.2 = true) :
    sortJson (matValue ms) = matValue ms := by
  simp only [matValue, sortJson, sortJsonFields_matValue ms htd]
  rw [sortFields_id _ (by rw [keysSorted_map]; exact hs)]

theorem sortJson_envValue (e : Option (List (String × String)))
    (h : match e with | none => True | some m => keysSorted m = true) :
    sortJson (envValue e) = envValue e := by
  cases e with
  | none => rfl
  | some m => exact sortJson_strMapValue m h

theorem sortJson_toValue (l : LinkV02) (h : l.wf = true) :
    sortJson (LinkV02.toValue l) = linkValueSorted l := by
  obtain ⟨hs, htd, henv⟩ : keysSorted l.materials = true
      ∧ (∀ kv ∈ l.materials, keysSorted kv.2 = true)
      ∧ (match l.env with | none => True | some m => keysSorted m = true) := by
    unfold LinkV02.wf at h
    simp only [Bool.and_eq_true, List.all_eq_true] at h
    refine ⟨h.1.1, fun kv hkv => by simpa using h.1.2 kv hkv, ?_⟩
    cases he : l.env with
    | none => trivial
    | some m =>
      rw [he] at h
      exact h.2
  have hfields : sortJsonFields [("name", Json.str l.name),
      ("materials", matValue l.materials), ("env", envValue l.env),
      ("command", Json.str l.command), ("byproducts", bpValue l.byproducts)]
      = [("name", Json.str l.name), ("materials", matValue l.materials),
        ("env", envValue l.env), ("command", Json.str l.command),
        ("byproducts", bpValue l.byproducts)] := by
    simp only [sortJsonFields]
    rw [sortJson_matValue l.materials hs htd, sortJson_envValue l.env henv]
    rw [show sortJson (Json.str l.name) = Json.str l.name from rfl]
    rw [show sortJson (Json.str l.command) = Json.str l.command from rfl]
    rw [show sortJson (bpValue l.byproducts) = bpValue l.byproducts from sortJson_bpValue _]
  show sortJson (Json.obj [("name", Json.str l.name),
      ("materials", matValue l.materials), ("env", envValue l.env),
      ("command", Json.str l.command), ("byproducts", bpValue l.byproducts)]) = _
  rw [show sortJson (Json.obj [("name", Json.str l.name),
      ("materials", matValue l.materials), ("env", envValue l.env),
      ("command", Json.str l.command), ("byproducts", bpValue l.byproducts)])
      = Json.obj (sortFields (sortJsonFields [("name", Json.str l.name),
        ("materials", matValue l.materials), ("env", envValue l.env),
        ("command", Json.str l.command), ("byproducts", bpValue l.byproducts)])) from rfl]
  rw [hfields]
  simp +decide [sortFields, insertField, linkValueSorted]
theorem wf_parts (l : LinkV02) (h : l.wf = true) :
    keysSorted l.materials = true ∧ (∀ kv ∈ l.materials, keysSorted kv.2 = true)
      ∧ (match l.env with | none => True | some m => keysSorted m = true) := by
  unfold LinkV02.wf at h
  simp only [Bool.and_eq_true, List.all_eq_true] at h
  refine ⟨h.1.1, fun kv hkv => by simpa using h.1.2 kv hkv, ?_⟩
  cases he : l.env with
  | none => trivial
  | some m =>
    rw [he] at h
    exact h.2

theorem fromValue_linkValueSorted (l : LinkV02) (h : l.wf = true) :
    LinkV02.fromValue (linkValueSorted l) = .ok l := by
  obtain ⟨hs, htd, henv⟩ := wf_parts l h
  simp only [linkValueSorted, LinkV02.fromValue, linkFields, linkApplyField]
  simp [decodeByProducts_bpValue l.byproducts, decodeStr,
    decodeMaterials_matValue l.materials hs htd, decodeEnv_envValue l.env henv,
    linkFields, linkApplyField]
/-- Decode after encode is the identity on well-formed records: the central
round-trip property of the canonical codec on the `LinkV02` schema. -/
theorem decode_encode (l : LinkV02) (h : l.wf = true) :
    PredicateWrapper.from_bytes l.to_bytes PredicateVersion.LinkV0_2
      = .ok (PredicateWrapper.LinkV0_2 l) := by
  simp only [PredicateWrapper.from_bytes]
  rw [show l.to_bytes = Json.canonicalize l.toValue from rfl]
  rw [deserialize_canonicalize, sortJson_toValue l h]
  simp [fromValue_linkValueSorted l h]

/-- The record built from metadata copies the well-formedness of the
metadata's maps. -/
theorem fromMetadata_wf (m : LinkMetadata) (h : m.wf = true) :
    (LinkV02.fromMetadata m).wf = true := h
/-! ### Totality of the byte order and sortedness of `BTreeMap` building -/

theorem char_toNat_inj (a b : Char) (h : a.toNat = b.toNat) : a = b := by
  have ha := Char.ofNat_toNat a
  have hb := Char.ofNat_toNat b
  rw [← ha, ← hb, h]

theorem string_data_inj (a b : String) (h : a.data = b.data) : a = b := by
  cases a
  cases b
  simp at h
  rw [h]

theorem charsLt_total (a : List Char) : ∀ b, charsLt a b = false → a ≠ b →
    charsLt b a = true := by
  induction a with
  | nil =>
    intro b h1 h2
    cases b with
    | nil => exact absurd rfl h2
    | cons c cs => simp [charsLt] at h1
  | cons a as ih =>
    intro b h1 h2
    cases b with
    | nil => simp [charsLt]
    | cons b bs =>
      by_cases hab : a.toNat < b.toNat
      · simp [charsLt, hab] at h1
      · by_cases heq : a.toNat = b.toNat
        · have hc : a = b := char_toNat_inj a b heq
          subst hc
          have hne : as ≠ bs := fun e => h2 (by rw [e])
          have h1' : charsLt as bs = false := by
            cases hx : charsLt as bs with
            | false => rfl
            | true => simp [charsLt, hx] at h1
          simp [charsLt]
          exact ih bs h1' hne
        · have hba : b.toNat < a.toNat := by omega
          simp [charsLt, hba]

theorem strLt_total (a b : String) (h1 : strLt a b = false) (h2 : a ≠ b) :
    strLt b a = true := by
  refine charsLt_total a.data b.data h1 ?_
  intro e
  exact h2 (string_data_inj a b e)

theorem keysSorted_cons_cons {α : Type} (a b : String × α) (l : List (String × α))
    (hab : strLt a.1 b.1 = true) (h : keysSorted (b :: l) = true) :
    keysSorted (a :: b :: l) = true := by
  obtain ⟨a1, a2⟩ := a
  obtain ⟨b1, b2⟩ := b
  simp only [keysSorted, Bool.and_eq_true]
  exact ⟨hab, h⟩

theorem insertMap_head {α : Type} (k : String) (v : α) (m : List (String × α)) :
    ∃ hd tl, insertMap k v m = hd :: tl ∧ (hd.1 = k ∨ ∃ rest, m = hd :: rest) := by
  cases m with
  | nil => exact ⟨(k, v), [], rfl, .inl rfl⟩
  | cons a as =>
    obtain ⟨a1, a2⟩ := a
    by_cases h1 : strLt k a1 = true
    · exact ⟨(k, v), (a1, a2) :: as, by simp [insertMap, h1], .inl rfl⟩
    · by_cases h2 : k = a1
      · refine ⟨(k, v), as, ?_, .inl rfl⟩
        simp [insertMap, h1, h2, strLt_irrefl]
      · refine ⟨(a1, a2), insertMap k v as, ?_, .inr ⟨as, rfl⟩⟩
        simp [insertMap, h1, h2]

theorem keysSorted_insertMap {α : Type} (k : String) (v : α) :
    ∀ (m : List (String × α)), keysSorted m = true →
      keysSorted (insertMap k v m) = true := by
  intro m
  induction m with
  | nil => intro _; rfl
  | cons a as ih =>
    intro h
    obtain ⟨a1, a2⟩ := a
    have htail : keysSorted as = true := keysSorted_tail (a1, a2) as h
    by_cases h1 : strLt k a1 = true
    · rw [show insertMap k v ((a1, a2) :: as) = (k, v) :: (a1, a2) :: as by
        simp [insertMap, h1]]
      exact keysSorted_cons_cons (k, v) (a1, a2) as h1 h
    · by_cases h2 : k = a1
      · rw [show insertMap k v ((a1, a2) :: as) = (k, v) :: as by
          simp [insertMap, h1, h2, strLt_irrefl]]
        cases as with
        | nil => rfl
        | cons b bs =>
          obtain ⟨b1, b2⟩ := b
          have hab : strLt a1 b1 = true := keysSorted_head_lt a1 a2 b1 b2 bs h
          refine keysSorted_cons_cons (k, v) (b1, b2) bs ?_ htail
          rw [h2]
          exact hab
      · have hgt : strLt a1 k = true :=
          strLt_total k a1 (by cases hx : strLt k a1 with
            | true => exact absurd hx h1
            | false => rfl) h2
        rw [show insertMap k v ((a1, a2) :: as) = (a1, a2) :: insertMap k v as by
          simp [insertMap, h1, h2]]
        have hins := ih htail
        obtain ⟨hd, tl, heq, hcase⟩ := insertMap_head k v as
        rw [heq] at hins ⊢
        refine keysSorted_cons_cons (a1, a2) hd tl ?_ hins
        rcases hcase with hk | ⟨rest, hrest⟩
        · rw [hk]
          exact hgt
        · obtain ⟨hd1, hd2⟩ := hd
          rw [hrest] at h
          exact keysSorted_head_lt a1 a2 hd1 hd2 rest h

theorem keysSorted_mapFromList {α : Type} (entries : List (String × α)) :
    keysSorted (mapFromList entries) = true := by
  unfold mapFromList
  have hgen : ∀ (l acc : List (String × α)), keysSorted acc = true →
      keysSorted (l.foldl (fun m kv => insertMap kv.1 kv.2 m) acc) = true := by
    intro l
    induction l with
    | nil => intro acc h; exact h
    | cons kv rest ih =>
      intro acc h
      simp only [List.foldl_cons]
      exact ih _ (keysSorted_insertMap kv.1 kv.2 acc h)
  exact hgen entries [] rfl
/-! ### Strict decoding: unknown and missing members are rejected -/

theorem linkApplyField_unknown (acc : LinkAcc) (k : String) (v : Json)
    (hk : k ∉ linkFieldNames) : linkApplyField acc k v = .error .schemaMismatch := by
  simp [linkFieldNames] at hk
  obtain ⟨h1, h2, h3, h4, h5⟩ := hk
  simp [linkApplyField, h1, h2, h3, h4, h5]

theorem linkFields_unknown (fs : List (String × Json)) :
    ∀ acc, (∃ kv ∈ fs, kv.1 ∉ linkFieldNames) →
      ∃ e, linkFields fs acc = .error e := by
  induction fs with
  | nil =>
    intro acc h
    simp at h
  | cons kv rest ih =>
    intro acc h
    obtain ⟨k, v⟩ := kv
    by_cases hk : k ∈ linkFieldNames
    · obtain ⟨kv', hkv', hkvn⟩ := h
      rcases List.mem_cons.mp hkv' with he | hm
      · rw [he] at hkvn
        exact absurd hk hkvn
      · simp only [linkFields]
        cases hstep : linkApplyField acc k v with
        | error e => exact ⟨e, rfl⟩
        | ok acc' =>
          obtain ⟨e, he⟩ := ih acc' ⟨kv', hm, hkvn⟩
          exact ⟨e, he⟩
    · refine ⟨.schemaMismatch, ?_⟩
      simp only [linkFields, linkApplyField_unknown acc k v hk]

theorem linkApplyField_preserves (acc : LinkAcc) (k : String) (v : Json) (acc' : LinkAcc)
    (h : linkApplyField acc k v = .ok acc') :
    (k ≠ "name" → acc'.name = acc.name)
      ∧ (k ≠ "materials" → acc'.materials = acc.materials)
      ∧ (k ≠ "command" → acc'.command = acc.command)
      ∧ (k ≠ "byproducts" → acc'.byproducts = acc.byproducts) := by
  unfold linkApplyField at h
  split_ifs at h with h1 h2 h3 h4 h5
  · subst h1
    split at h
    · exact absurd h (by simp)
    · split at h
      · rename_i s hs
        simp only [Except.ok.injEq] at h
        subst h
        exact ⟨fun hne => absurd rfl hne, fun _ => rfl, fun _ => rfl, fun _ => rfl⟩
      · exact absurd h (by simp)
  · subst h2
    split at h
    · exact absurd h (by simp)
    · split at h
      · simp only [Except.ok.injEq] at h
        subst h
        exact ⟨fun _ => rfl, fun hne => absurd rfl hne, fun _ => rfl, fun _ => rfl⟩
      · exact absurd h (by simp)
  · split at h
    · exact absurd h (by simp)
    · split at h
      · simp only [Except.ok.injEq] at h
        subst h
        exact ⟨fun _ => rfl, fun _ => rfl, fun _ => rfl, fun _ => rfl⟩
      · exact absurd h (by simp)
  · subst h4
    split at h
    · exact absurd h (by simp)
    · split at h
      · simp only [Except.ok.injEq] at h
        subst h
        exact ⟨fun _ => rfl, fun _ => rfl, fun hne => absurd rfl hne, fun _ => rfl⟩
      · exact absurd h (by simp)
  · subst h5
    split at h
    · exact absurd h (by simp)
    · split at h
      · simp only [Except.ok.injEq] at h
        subst h
        exact ⟨fun _ => rfl, fun _ => rfl, fun _ => rfl, fun hne => absurd rfl hne⟩
      · exact absurd h (by simp)

theorem linkFields_preserves (fs : List (String × Json)) :
    ∀ acc acc', linkFields fs acc = .ok acc' →
      ((∀ kv ∈ fs, kv.1 ≠ "name") → acc'.name = acc.name)
        ∧ ((∀ kv ∈ fs, kv.1 ≠ "materials") → acc'.materials = acc.materials)
        ∧ ((∀ kv ∈ fs, kv.1 ≠ "command") → acc'.command = acc.command)
        ∧ ((∀ kv ∈ fs, kv.1 ≠ "byproducts") → acc'.byproducts = acc.byproducts) := by
  induction fs with
  | nil =>
    intro acc acc' h
    simp only [linkFields, Except.ok.injEq] at h
    subst h
    exact ⟨fun _ => rfl, fun _ => rfl, fun _ => rfl, fun _ => rfl⟩
  | cons kv rest ih =>
    intro acc acc' h
    obtain ⟨k, v⟩ := kv
    simp only [linkFields] at h
    cases hstep : linkApplyField acc k v with
    | error e =>
      rw [hstep] at h
      exact absurd h (by simp)
    | ok acc1 =>
      rw [hstep] at h
      have hp1 := linkApplyField_preserves acc k v acc1 hstep
      have hp2 := ih acc1 acc' h
      refine ⟨?_, ?_, ?_, ?_⟩
      · intro hall
        rw [hp2.1 (fun kv hkv => hall kv (by simp [hkv]))]
        exact hp1.1 (hall (k, v) (by simp))
      · intro hall
        rw [hp2.2.1 (fun kv hkv => hall kv (by simp [hkv]))]
        exact hp1.2.1 (hall (k, v) (by simp))
      · intro hall
        rw [hp2.2.2.1 (fun kv hkv => hall kv (by simp [hkv]))]
        exact hp1.2.2.1 (hall (k, v) (by simp))
      · intro hall
        rw [hp2.2.2.2 (fun kv hkv => hall kv (by simp [hkv]))]
        exact hp1.2.2.2 (hall (k, v) (by simp))

theorem fromValue_rejects (fs : List (String × Json))
    (hbad : (∃ kv ∈ fs, kv.1 ∉ linkFieldNames)
      ∨ (∀ kv ∈ fs, kv.1 ≠ "name") ∨ (∀ kv ∈ fs, kv.1 ≠ "materials")
      ∨ (∀ kv ∈ fs, kv.1 ≠ "command") ∨ (∀ kv ∈ fs, kv.1 ≠ "byproducts")) :
    ∃ e, LinkV02.fromValue (.obj fs) = .error e := by
  cases hlf : linkFields fs {} with
  | error e =>
    refine ⟨e, ?_⟩
    simp only [LinkV02.fromValue]
    rw [hlf]
  | ok acc =>
    have hpres := linkFields_preserves fs {} acc hlf
    obtain ⟨n1, m1, e1, c1, b1⟩ := acc
    rcases hbad with hm | hm | hm | hm | hm
    · obtain ⟨e, he⟩ := linkFields_unknown fs {} hm
      rw [he] at hlf
      exact absurd hlf (by simp)
    · have hz : n1 = none := by simpa using hpres.1 hm
      subst hz
      refine ⟨.schemaMismatch, ?_⟩
      simp only [LinkV02.fromValue]
      rw [hlf]
    · have hz : m1 = none := by simpa using hpres.2.1 hm
      subst hz
      refine ⟨.schemaMismatch, ?_⟩
      simp only [LinkV02.fromValue]
      rw [hlf]
      cases n1 <;> rfl
    · have hz : c1 = none := by simpa using hpres.2.2.1 hm
      subst hz
      refine ⟨.schemaMismatch, ?_⟩
      simp only [LinkV02.fromValue]
      rw [hlf]
      cases n1 <;> cases m1 <;> rfl
    · have hz : b1 = none := by simpa using hpres.2.2.2 hm
      subst hz
      refine ⟨.schemaMismatch, ?_⟩
      simp only [LinkV02.fromValue]
      rw [hlf]
      cases n1 <;> cases m1 <;> cases c1 <;> rfl
/-! ### Serialized record shape without the optional env member -/

theorem sortJson_linkValueNoEnv (l : LinkV02) (h : l.wf = true) :
    sortJson (linkValueNoEnv l) = linkValueNoEnv l := by
  obtain ⟨hs, htd, henv⟩ := wf_parts l h
  have hfields : sortJsonFields [("byproducts", bpValue l.byproducts),
      ("command", Json.str l.command), ("materials", matValue l.materials),
      ("name", Json.str l.name)]
      = [("byproducts", bpValue l.byproducts), ("command", Json.str l.command),
        ("materials", matValue l.materials), ("name", Json.str l.name)] := by
    simp only [sortJsonFields]
    rw [sortJson_matValue l.materials hs htd]
    rw [show sortJson (Json.str l.name) = Json.str l.name from rfl]
    rw [show sortJson (Json.str l.command) = Json.str l.command from rfl]
    rw [show sortJson (bpValue l.byproducts) = bpValue l.byproducts from sortJson_bpValue _]
  show sortJson (Json.obj [("byproducts", bpValue l.byproducts),
      ("command", Json.str l.command), ("materials", matValue l.materials),
      ("name", Json.str l.name)]) = _
  rw [show sortJson (Json.obj [("byproducts", bpValue l.byproducts),
      ("command", Json.str l.command), ("materials", matValue l.materials),
      ("name", Json.str l.name)])
      = Json.obj (sortFields (sortJsonFields [("byproducts", bpValue l.byproducts),
        ("command", Json.str l.command), ("materials", matValue l.materials),
        ("name", Json.str l.name)])) from rfl]
  rw [hfields]
  rw [sortFields_id _ (by simp +decide [keysSorted])]
  rfl

theorem fromValue_linkValueNoEnv (l : LinkV02) (h : l.wf = true) :
    LinkV02.fromValue (linkValueNoEnv l) = .ok { l with env := none } := by
  obtain ⟨hs, htd, henv⟩ := wf_parts l h
  simp only [linkValueNoEnv, LinkV02.fromValue, linkFields, linkApplyField]
  simp [decodeByProducts_bpValue l.byproducts, decodeStr,
    decodeMaterials_matValue l.materials hs htd, linkFields, linkApplyField]

theorem decode_encode_noEnv (l : LinkV02) (h : l.wf = true) :
    PredicateWrapper.from_bytes (Json.canonicalize (linkValueNoEnv l))
      PredicateVersion.LinkV0_2 = .ok (PredicateWrapper.LinkV0_2 { l with env := none }) := by
  simp only [PredicateWrapper.from_bytes]
  rw [deserialize_canonicalize, sortJson_linkValueNoEnv l h]
  simp [fromValue_linkValueNoEnv l h]
/-! ### Claim theorems -/

/-- C1: for every valid UnifiedMetadata `m`, decoding the bytes produced by
encoding the LinkV02 record built from `m` yields a record equal to
`from_metadata(m, LinkV0_2)`. -/
theorem c1_round_trip (m : LinkMetadata) (h : m.wf = true) :
    PredicateWrapper.from_bytes
        (PredicateWrapper.serialize (PredicateWrapper.from_meta m PredicateVersion.LinkV0_2))
        PredicateVersion.LinkV0_2
      = .ok (PredicateWrapper.from_meta m PredicateVersion.LinkV0_2) := by
  simp only [PredicateWrapper.from_meta, PredicateWrapper.serialize]
  exact decode_encode (LinkV02.fromMetadata m) (fromMetadata_wf m h)

/-- Witness for C1 at a concrete populated metadata value. -/
theorem c1_round_trip_witness :
    sampleMeta.wf = true
      ∧ PredicateWrapper.from_bytes
          (PredicateWrapper.serialize
            (PredicateWrapper.from_meta sampleMeta PredicateVersion.LinkV0_2))
          PredicateVersion.LinkV0_2
        = .ok (PredicateWrapper.from_meta sampleMeta PredicateVersion.LinkV0_2) :=
  ⟨by decide, c1_round_trip sampleMeta (by decide)⟩

/-- C2 (counterexample): a JSON object missing the `env` member — a member
the claim counts among the required set — decodes successfully (to a record
with `env = None`) instead of failing. -/
theorem c2_counterexample :
    Json.deserialize c2NoEnvBytes = .ok (.obj c2NoEnvFields)
      ∧ "env" ∉ c2NoEnvFields.map Prod.fst
      ∧ PredicateWrapper.from_bytes c2NoEnvBytes PredicateVersion.LinkV0_2
          = .ok (PredicateWrapper.LinkV0_2
              { name := "", materials := [], env := none, command := "",
                byproducts := ByProducts.new }) :=
  ⟨rfl, by decide, rfl⟩

/-- C2 (amended): decoding a parsed JSON object as LinkV02 fails whenever it
contains a member outside the declared set, or is missing one of the
required members `name`, `materials`, `command`, `byproducts`; `env`, being
`Option`-typed, is not required and defaults to `None` when absent. -/
theorem c2_strict_decode (bytes : String) (fs : List (String × Json))
    (hparse : Json.deserialize bytes = .ok (.obj fs))
    (hbad : (∃ kv ∈ fs, kv.1 ∉ linkFieldNames)
      ∨ (∀ kv ∈ fs, kv.1 ≠ "name") ∨ (∀ kv ∈ fs, kv.1 ≠ "materials")
      ∨ (∀ kv ∈ fs, kv.1 ≠ "command") ∨ (∀ kv ∈ fs, kv.1 ≠ "byproducts")) :
    ∃ e, PredicateWrapper.from_bytes bytes PredicateVersion.LinkV0_2 = .error e := by
  obtain ⟨e, he⟩ := fromValue_rejects fs hbad
  refine ⟨e, ?_⟩
  simp [PredicateWrapper.from_bytes, hparse, he]

/-- Witness for the amended C2 at the concrete input `{}`. -/
theorem c2_strict_decode_witness :
    Json.deserialize "\x7b\x7d" = .ok (.obj [])
      ∧ ∃ e, PredicateWrapper.from_bytes "\x7b\x7d" PredicateVersion.LinkV0_2 = .error e :=
  ⟨rfl, c2_strict_decode "\x7b\x7d" [] rfl (.inr (.inl (by simp)))⟩

/-- C3: the blank record encodes to exactly the reference canonical bytes,
and those bytes decode back to the same record both with an explicit
version hint and with auto-detection. -/
theorem c3_blank_encoding :
    (LinkV02.fromMetadata blankMeta).to_bytes = blankLinkBytes
      ∧ PredicateWrapper.from_bytes blankLinkBytes PredicateVersion.LinkV0_2
          = .ok (PredicateWrapper.LinkV0_2 (LinkV02.fromMetadata blankMeta))
      ∧ PredicateWrapper.try_from_bytes blankLinkBytes
          = .ok (PredicateWrapper.LinkV0_2 (LinkV02.fromMetadata blankMeta)) :=
  ⟨rfl, rfl, rfl⟩

/-- C4: encoding is deterministic, and re-encoding the record obtained by
decoding the canonical bytes reproduces the same bytes. -/
theorem c4_canonical_stability (r : LinkV02) (h : r.wf = true) :
    r.to_bytes = r.to_bytes
      ∧ ∀ r', PredicateWrapper.from_bytes r.to_bytes PredicateVersion.LinkV0_2
          = .ok (PredicateWrapper.LinkV0_2 r') → r'.to_bytes = r.to_bytes := by
  refine ⟨rfl, fun r' h' => ?_⟩
  rw [decode_encode r h] at h'
  simp only [Except.ok.injEq, PredicateWrapper.LinkV0_2.injEq] at h'
  rw [← h']

set_option maxRecDepth 8000 in
/-- Witness for C4 at a concrete record. -/
theorem c4_canonical_stability_witness :
    (LinkV02.fromMetadata sampleMeta).to_bytes = (LinkV02.fromMetadata sampleMeta).to_bytes :=
  (c4_canonical_stability (LinkV02.fromMetadata sampleMeta) (by decide)).2
    (LinkV02.fromMetadata sampleMeta) (by rfl)

/-- C5: the truncated input `{` and the empty object `{}` both fail to
decode as LinkV02. -/
theorem c5_malformed_rejected :
    PredicateWrapper.from_bytes "\x7b" PredicateVersion.LinkV0_2 = .error .malformed
      ∧ PredicateWrapper.from_bytes "\x7b\x7d" PredicateVersion.LinkV0_2 = .error .schemaMismatch :=
  ⟨rfl, rfl⟩

/-- C6: building a LinkV02 from metadata is a total projection copying
name, materials, env, command and byproducts, and silently dropping fields
outside this version's schema (products). -/
theorem c6_projection_total (m : LinkMetadata) :
    (LinkV02.fromMetadata m).name = m.name
      ∧ (LinkV02.fromMetadata m).materials = m.materials
      ∧ (LinkV02.fromMetadata m).env = m.env
      ∧ (LinkV02.fromMetadata m).command = m.command
      ∧ (LinkV02.fromMetadata m).byproducts = m.byproducts
      ∧ ∀ ps, LinkV02.fromMetadata { m with products := ps } = LinkV02.fromMetadata m :=
  ⟨rfl, rfl, rfl, rfl, rfl, fun _ => rfl⟩

/-- C7: `version` returns the fixed identifier `LinkV0_2` for every record,
independently of the record's field values. -/
theorem c7_version_constant (r : LinkV02) :
    r.version = PredicateVersion.LinkV0_2 ∧ ∀ r' : LinkV02, r.version = r'.version :=
  ⟨rfl, fun _ => rfl⟩

/-- C8: `into_enum` wraps the record in the variant whose tag equals the
record's own version. -/
theorem c8_wrapper_consistency (r : LinkV02) :
    r.into_enum = PredicateWrapper.LinkV0_2 r ∧ r.into_enum.version = r.version :=
  ⟨rfl, rfl⟩

/-- C9: a materials map built by `BTreeMap` insertion is enumerated in
sorted key order regardless of insertion order, and the canonicalization
pass leaves its serialized object unchanged — the encoded member order is
the sorted enumeration order. -/
theorem c9_materials_sorted (entries : List (VirtualTargetPath × TargetDescription))
    (htd : ∀ kv ∈ mapFromList entries, keysSorted kv.2 = true) :
    keysSorted (mapFromList entries) = true
      ∧ sortJson (matValue (mapFromList entries)) = matValue (mapFromList entries) :=
  ⟨keysSorted_mapFromList entries,
   sortJson_matValue _ (keysSorted_mapFromList entries) htd⟩

/-- Witness for C9 at entries given in unsorted insertion order. -/
theorem c9_materials_sorted_witness :
    (∀ kv ∈ mapFromList c9Entries, keysSorted kv.2 = true)
      ∧ keysSorted (mapFromList c9Entries) = true
      ∧ sortJson (matValue (mapFromList c9Entries)) = matValue (mapFromList c9Entries) :=
  ⟨by decide, (c9_materials_sorted c9Entries (by decide)).1,
    (c9_materials_sorted c9Entries (by decide)).2⟩

/-- C10 (counterexample): a JSON object lacking the `env` member decodes
successfully with `env = None`, contradicting the claim that such input
fails with a decode error. -/
theorem c10_counterexample :
    Json.deserialize c10NoEnvBytes = .ok (.obj c10NoEnvFields)
      ∧ "env" ∉ c10NoEnvFields.map Prod.fst
      ∧ PredicateWrapper.from_bytes c10NoEnvBytes PredicateVersion.LinkV0_2
          = .ok (PredicateWrapper.LinkV0_2
              { name := "step", materials := [], env := none, command := "cc",
                byproducts := { returnValue := 1, stderr := "e", stdout := "o" } }) :=
  ⟨rfl, by decide, rfl⟩

/-- C10 (amended): the `env` member is always present in the serialized
form (`None` encodes as `null`), but on decode a missing `env` member is
not an error: it defaults to `None`. -/
theorem c10_env_optional (l : LinkV02) (h : l.wf = true) :
    (∃ fs, LinkV02.toValue l = .obj fs ∧ ("env", envValue l.env) ∈ fs
        ∧ (l.env = none → envValue l.env = .null))
      ∧ PredicateWrapper.from_bytes (Json.canonicalize (linkValueNoEnv l))
          PredicateVersion.LinkV0_2
        = .ok (PredicateWrapper.LinkV0_2 { l with env := none }) := by
  refine ⟨⟨_, rfl, ?_, fun he => by rw [he]; rfl⟩, decode_encode_noEnv l h⟩
  simp [LinkV02.toValue]

/-- Witness for the amended C10 at a concrete record. -/
theorem c10_env_optional_witness :
    (LinkV02.fromMetadata sampleMeta).wf = true
      ∧ PredicateWrapper.from_bytes
          (Json.canonicalize (linkValueNoEnv (LinkV02.fromMetadata sampleMeta)))
          PredicateVersion.LinkV0_2
        = .ok (PredicateWrapper.LinkV0_2 { LinkV02.fromMetadata sampleMeta with env := none }) :=
  ⟨by decide, (c10_env_optional (LinkV02.fromMetadata sampleMeta) (by decide)).2⟩
